import Mathlib

/-!
Verification of the Schnorr adaptor signature module
(`schnorr_fun/src/adaptor/mod.rs`).

The module implements four operations: `encrypted_sign`,
`verify_encrypted_signature`, `decrypt_signature` and
`recover_decryption_key`.  The elliptic-curve collaborator (scalars,
points, generator, canonical y-choice normalization, challenge hash and
nonce derivation) is external to the module; following the spec it is
modelled abstractly as a cyclic group of order `n`, realized as the
additive group `ZMod n` with generator `1`.  Scalars are likewise
`ZMod n` (integers modulo the group order) and scalar multiplication is
ring multiplication.  The x-only coordinate of a point identifies the
pair consisting of a point and its negation, and each y-choice
normalization picks one canonical representative of that pair,
returning a flag recording whether it negated.  The challenge and
nonce hashes are arbitrary function fields of the `Schnorr` structure,
mirroring the generic hash parameters of the Rust `Schnorr` type.

Rust panics (the two `expect` calls) are modelled as the `none` case of
an `Option`-valued result.
-/

namespace SchnorrFun

/-- Modelled from the spec: a message is a byte sequence; bytes are
modelled as naturals. -/
abbrev Message := List Nat

/-- Modelled from the spec: nonce derivation mode, either deterministic
from secret material or incorporating externally supplied randomness.
The randomness itself is passed separately to the operations that take a
mode, modelling the rng argument carried by the randomized mode. -/
inductive Derivation where
  | deterministic
  | rand
deriving DecidableEq, Repr

/-- Modelled from the spec: the `Schnorr` context, generic over the
challenge hash and the nonce hash.  `challenge` maps (nonce point
x-coordinate, verification key x-coordinate, message) to a scalar;
`nonceHash` and `nonceHashRand` are the deterministic and randomized
nonce-derivation hashes, mapping a secret scalar and public auxiliary
data (and, for the randomized one, entropy) to a scalar. -/
structure Schnorr (n : Nat) where
  challenge : Nat → Nat → Message → ZMod n
  nonceHash : ZMod n → List Nat → ZMod n
  nonceHashRand : ZMod n → List Nat → Nat → ZMod n

variable {n : Nat}

/-- Modelled from the spec: the fixed group generator.  In the cyclic
model the group is `ZMod n` additively and `1` generates it. -/
def G (n : Nat) : ZMod n := 1

/-- Modelled from the spec: scalar multiplication `a * P` in the group. -/
def gMul (a P : ZMod n) : ZMod n := a * P

/-- Modelled from the spec: the x-only coordinate of a point, a value
shared by exactly the point and its negation. -/
def xonly (P : ZMod n) : Nat := min P.val (-P).val

/-- Modelled from the spec: whether a point is the canonical square-y
representative of the pair consisting of it and its negation. -/
def isSquareY (P : ZMod n) : Bool := decide (P.val ≤ (-P).val)

/-- Modelled from the spec: whether a point is the canonical even-y
representative of the pair consisting of it and its negation. -/
def isEvenY (P : ZMod n) : Bool := decide (P.val % 2 = 0)

/-- Modelled from the spec: normalize a point to its canonical square-y
representative, returning the representative together with a flag that
is true exactly when the normalization negated the point
(`into_point_with_y_choice::<SquareY>` of the group collaborator). -/
def into_point_with_y_choice_square (P : ZMod n) : ZMod n × Bool :=
  if isSquareY P then (P, false) else (-P, true)

/-- Modelled from the spec: conditional negation of a scalar or point
(`conditional_negate` of the group collaborator). -/
def conditional_negate (a : ZMod n) (b : Bool) : ZMod n :=
  if b then -a else a

/-- A signing key pair: secret scalar `x` and verification point `X`. -/
structure KeyPair (n : Nat) where
  x : ZMod n
  X : ZMod n
deriving DecidableEq, Repr

/-- Modelled from the spec: validity invariant of a `KeyPair`: the
verification point is `x * G` and is in even-y canonical form. -/
def KeyPair.valid (kp : KeyPair n) : Prop :=
  kp.X = gMul kp.x (G n) ∧ isEvenY kp.X = true

instance (kp : KeyPair n) : Decidable kp.valid := by
  unfold KeyPair.valid; infer_instance

/-- The ciphertext of the adaptor scheme (`EncryptedSignature`):
square-y normalized nonce point `R`, public scalar `s_hat`, and the
`needs_negation` flag. -/
structure EncryptedSignature (n : Nat) where
  R : ZMod n
  s_hat : ZMod n
  needs_negation : Bool
deriving DecidableEq, Repr

/-- A plain Schnorr signature: x-only nonce coordinate `R` and scalar
`s`. -/
structure Signature (n : Nat) where
  R : Nat
  s : ZMod n
deriving DecidableEq, Repr

/-- Modelled from the spec: the `derive_nonce` collaborator.  In the
deterministic mode the supplied entropy `rng` is ignored; in the
randomized mode it is incorporated. -/
def derive_nonce (S : Schnorr n) (derivation : Derivation) (rng : Nat)
    (secret : ZMod n) (aux : List Nat) : ZMod n :=
  match derivation with
  | .deterministic => S.nonceHash secret aux
  | .rand => S.nonceHashRand secret aux rng

/-- Translation of `encrypted_sign` (adaptor/mod.rs lines 32-70).  The
`expect("computationally unreachable")` on the non-zero mark of
`r * G + Y` is modelled by returning `none`. -/
def encrypted_sign (S : Schnorr n) (signing_key : KeyPair n)
    (encryption_key : ZMod n) (message : Message)
    (derivation : Derivation) (rng : Nat) :
    Option (EncryptedSignature n) :=
  let x := signing_key.x
  let X := signing_key.X
  let Y := encryption_key
  let r := derive_nonce S derivation rng x (X.val :: Y.val :: message)
  let Rfull := gMul r (G n) + Y
  if Rfull = 0 then
    none
  else
    let RN := into_point_with_y_choice_square Rfull
    let R := RN.1
    let needs_negation := RN.2
    let r2 := conditional_negate r needs_negation
    let c := S.challenge (xonly R) (xonly X) message
    let s_hat := r2 + c * x
    some ⟨R, s_hat, needs_negation⟩

/-- Translation of `verify_encrypted_signature` (adaptor/mod.rs lines
102-124). -/
def verify_encrypted_signature (S : Schnorr n) (verification_key : ZMod n)
    (encryption_key : ZMod n) (message : Message)
    (ciphertext : EncryptedSignature n) : Bool :=
  let X := verification_key
  let Y := encryption_key
  let Rhat := ciphertext.R + conditional_negate Y (!ciphertext.needs_negation)
  let c := S.challenge (xonly ciphertext.R) (xonly X) message
  decide (Rhat = gMul ciphertext.s_hat (G n) - gMul c X)

/-- Translation of `decrypt_signature` (adaptor/mod.rs lines 126-141). -/
def decrypt_signature (S : Schnorr n) (decryption_key : ZMod n)
    (ciphertext : EncryptedSignature n) : Signature n :=
  let y := conditional_negate decryption_key ciphertext.needs_negation
  let s := ciphertext.s_hat + y
  ⟨xonly ciphertext.R, s⟩

/-- Translation of `recover_decryption_key` (adaptor/mod.rs lines
143-169).  The outer `Option` models the `expect("unreachable")` on the
non-zero mark of the recovered scalar: `none` is the panic, `some r` is
the ordinary return value `r`. -/
def recover_decryption_key (S : Schnorr n) (encryption_key : ZMod n)
    (ciphertext : EncryptedSignature n) (signature : Signature n) :
    Option (Option (ZMod n)) :=
  if signature.R ≠ xonly ciphertext.R then
    some none
  else
    let y0 := signature.s - ciphertext.s_hat
    let y := conditional_negate y0 ciphertext.needs_negation
    let implied_encryption_key := gMul y (G n)
    if implied_encryption_key = encryption_key then
      if y = 0 then none else some (some y)
    else
      some none

/-- Modelled from the spec: the encrypted-sign recipe of spec section
4.1 written out step by step, to be compared with the translation of the
source.  Step 1 derives the nonce from the secret `x` and public
auxiliary data `[X, Y, message]`; step 2 computes `R_full = r * G + Y`
and aborts if it is the identity; step 3 normalizes to the square-y
representative and conditionally negates `r`; step 4 computes the
challenge `c = Challenge(R.x, X.x, message)`; step 5 computes
`s_hat = r + c * x`; step 6 returns the ciphertext. -/
def encryptedSignSpec (S : Schnorr n) (kp : KeyPair n) (Y : ZMod n)
    (m : Message) (mode : Derivation) (rng : Nat) :
    Option (EncryptedSignature n) :=
  let r := derive_nonce S mode rng kp.x (kp.X.val :: Y.val :: m)
  let Rfull := gMul r (G n) + Y
  if Rfull = 0 then
    none
  else
    let R := (into_point_with_y_choice_square Rfull).1
    let nn := (into_point_with_y_choice_square Rfull).2
    let rCorrected := conditional_negate r nn
    let c := S.challenge (xonly R) (xonly kp.X) m
    some ⟨R, rCorrected + c * kp.x, nn⟩

/-- Modelled from the spec: the decrypt recipe of spec section 4.1
written out, to be compared with the translation of the source:
conditionally negate `y` by `needs_negation`, set `s = s_hat + y`, and
return the plain signature over the x-only coordinate of `R`. -/
def decryptSpec (y : ZMod n) (ct : EncryptedSignature n) : Signature n :=
  ⟨xonly ct.R, ct.s_hat + conditional_negate y ct.needs_negation⟩

/-- Modelled from the spec: the recovery recipe of spec section 4.1
written out, to be compared with the translation of the source.  If the
signature nonce coordinate differs from the ciphertext one, the result
is none; otherwise `y = s - s_hat` conditionally negated by
`needs_negation` is returned exactly when `y * G` equals the encryption
key. -/
def recoverSpec (Y : ZMod n) (ct : EncryptedSignature n)
    (sig : Signature n) : Option (ZMod n) :=
  if sig.R ≠ xonly ct.R then
    none
  else
    let y := conditional_negate (sig.s - ct.s_hat) ct.needs_negation
    if gMul y (G n) = Y then some y else none

/-- A concrete `Schnorr` context over the cyclic group of order 5, used
to instantiate the generic theorems at concrete inputs. -/
def S5 : Schnorr 5 :=
  ⟨fun _ _ _ => 1, fun _ _ => 3, fun _ _ r => (r : ZMod 5)⟩

/-- A concrete valid key pair over the group of order 5. -/
def kp5 : KeyPair 5 := ⟨2, 2⟩

/-- The concrete ciphertext produced by `encrypted_sign` from `S5`,
`kp5`, encryption key `3`, the empty message and deterministic
derivation. -/
def ct5 : EncryptedSignature 5 := ⟨1, 0, false⟩

/-! Helper lemmas shared by the claim theorems. -/

theorem conditional_negate_conditional_negate (a : ZMod n) (b : Bool) :
    conditional_negate (conditional_negate a b) b = a := by
  cases b <;> simp [conditional_negate]

theorem into_point_with_y_choice_square_cases (P : ZMod n) :
    into_point_with_y_choice_square P = (P, false) ∨
    into_point_with_y_choice_square P = (-P, true) := by
  unfold into_point_with_y_choice_square
  split
  · exact Or.inl rfl
  · exact Or.inr rfl

/-! The claim theorems. -/

/-- Claim C4: `encrypted_sign` derives the nonce `r` from the secret `x` with
public auxiliary data `[X, Y, message]`, computes `R_full = r * G + Y`,
normalizes it to the canonical square-y representative `R` obtaining
`needs_negation` and conditionally negates `r` by it, computes the
challenge `c = Challenge(R.x, X.x, message)`, and returns the ciphertext
with `s_hat = r + c * x`, exactly the spec recipe `encryptedSignSpec`. -/
theorem encrypted_sign_follows_spec (S : Schnorr n) (kp : KeyPair n)
    (Y : ZMod n) (m : Message) (mode : Derivation) (rng : Nat) :
    encrypted_sign S kp Y m mode rng = encryptedSignSpec S kp Y m mode rng :=
  rfl

/-- Claim C5: `decrypt_signature` returns the signature made of the x-only
coordinate of `R` and `s = s_hat + y` with `y` conditionally negated by
`needs_negation`, exactly the pure spec transform `decryptSpec`; it is a
total function of the decryption key and ciphertext alone, performing no
validation. -/
theorem decrypt_signature_follows_spec (S : Schnorr n) (y : ZMod n)
    (ct : EncryptedSignature n) :
    decrypt_signature S y ct = decryptSpec y ct :=
  rfl

/-- Claim C8: `encrypted_sign` aborts (returns no ciphertext) exactly when the
point `r * G + Y` computed from the derived nonce `r` is the identity;
in particular the abort branch is unreachable whenever `r * G + Y` is
not the identity. -/
theorem encrypted_sign_aborts_iff (S : Schnorr n) (kp : KeyPair n)
    (Y : ZMod n) (m : Message) (mode : Derivation) (rng : Nat) :
    encrypted_sign S kp Y m mode rng = none ↔
      gMul (derive_nonce S mode rng kp.x (kp.X.val :: Y.val :: m)) (G n) + Y
        = 0 := by
  simp only [encrypted_sign]
  split
  · simp_all
  · simp_all

/-- Claim C9: with the deterministic derivation mode, `encrypted_sign` does
not depend on the supplied randomness: any two invocations with
identical key pair, encryption key and message produce identical
ciphertexts. -/
theorem encrypted_sign_deterministic (S : Schnorr n) (kp : KeyPair n)
    (Y : ZMod n) (m : Message) (rng₁ rng₂ : Nat) :
    encrypted_sign S kp Y m .deterministic rng₁
      = encrypted_sign S kp Y m .deterministic rng₂ :=
  rfl

/-- Claim C3: for an even-y verification key `X`, an encryption key `Y`,
a message `m` and a ciphertext, `verify_encrypted_signature` returns
true exactly when `R + Y` (if `needs_negation`) respectively `R - Y`
(otherwise) equals `s_hat * G - c * X`, where the challenge `c` is
recomputed from `(R.x, X.x, m)` exactly as signing computes it; the
function is total, always returning a boolean. -/
theorem verify_encrypted_signature_iff (S : Schnorr n) (X Y : ZMod n)
    (m : Message) (ct : EncryptedSignature n) (hX : isEvenY X = true) :
    verify_encrypted_signature S X Y m ct = true ↔
      ct.R + (if ct.needs_negation then Y else -Y)
        = gMul ct.s_hat (G n)
            - gMul (S.challenge (xonly ct.R) (xonly X) m) X := by
  cases hnn : ct.needs_negation <;>
    simp [verify_encrypted_signature, conditional_negate, hnn]

/-- Witness for claim C3 at the concrete context `S5`, verification key
`2`, encryption key `3`, the empty message and ciphertext `ct5`. -/
theorem verify_encrypted_signature_iff_witness :
    isEvenY (2 : ZMod 5) = true ∧
      (verify_encrypted_signature S5 2 3 [] ct5 = true ↔
        ct5.R + (if ct5.needs_negation then (3 : ZMod 5) else -3)
          = gMul ct5.s_hat (G 5)
              - gMul (S5.challenge (xonly ct5.R) (xonly (2 : ZMod 5)) [])
                  2) :=
  ⟨by decide, verify_encrypted_signature_iff S5 2 3 [] ct5 (by decide)⟩

/-- Claim C2: a ciphertext produced by `encrypted_sign` under the
encryption key `Y = y * G` decrypts under `y` to a signature from which
`recover_decryption_key` recovers exactly the original scalar `y` (the
outer `some` records that the defensive non-zero check cannot fire). -/
theorem recover_after_decrypt (S : Schnorr n) (kp : KeyPair n)
    (y Y : ZMod n) (m : Message) (mode : Derivation) (rng : Nat)
    (ct : EncryptedSignature n)
    (hY : Y = gMul y (G n)) (hy : y ≠ 0)
    (hct : encrypted_sign S kp Y m mode rng = some ct) :
    recover_decryption_key S Y ct (decrypt_signature S y ct)
      = some (some y) := by
  subst hY
  simp [recover_decryption_key, decrypt_signature, add_sub_cancel_left,
    conditional_negate_conditional_negate, hy]

/-- Witness for claim C2 at the concrete context `S5`, key pair `kp5`,
decryption key `3` and ciphertext `ct5`. -/
theorem recover_after_decrypt_witness :
    (3 : ZMod 5) = gMul 3 (G 5) ∧ (3 : ZMod 5) ≠ 0 ∧
      encrypted_sign S5 kp5 3 [] .deterministic 0 = some ct5 ∧
      recover_decryption_key S5 3 ct5 (decrypt_signature S5 3 ct5)
        = some (some 3) :=
  ⟨by decide, by decide, by decide,
    recover_after_decrypt S5 kp5 3 3 [] .deterministic 0 ct5 (by decide)
      (by decide) (by decide)⟩

/-- Claim C6: for a non-identity encryption key, `recover_decryption_key`
never panics and behaves exactly as the spec recipe `recoverSpec`: a
signature whose nonce coordinate differs from the ciphertext one yields
none regardless of every other field, and otherwise the conditionally
negated difference `s - s_hat` is returned exactly when its public point
equals the encryption key, with none otherwise. -/
theorem recover_decryption_key_follows_spec (S : Schnorr n) (Y : ZMod n)
    (ct : EncryptedSignature n) (sig : Signature n) (hY : Y ≠ 0) :
    recover_decryption_key S Y ct sig = some (recoverSpec Y ct sig) := by
  by_cases hR : sig.R ≠ xonly ct.R
  · simp [recover_decryption_key, recoverSpec, hR]
  · by_cases himp :
      gMul (conditional_negate (sig.s - ct.s_hat) ct.needs_negation) (G n)
        = Y
    · have hy0 :
        conditional_negate (sig.s - ct.s_hat) ct.needs_negation ≠ 0 := by
        intro h
        apply hY
        rw [← himp, h, gMul, zero_mul]
      simp [recover_decryption_key, recoverSpec, hR, himp, hy0]
    · simp [recover_decryption_key, recoverSpec, hR, himp]

/-- Witness for claim C6 at the concrete context `S5`, encryption key
`3`, ciphertext `ct5` and signature `(1, 3)`. -/
theorem recover_decryption_key_follows_spec_witness :
    (3 : ZMod 5) ≠ 0 ∧
      recover_decryption_key S5 3 ct5 ⟨1, 3⟩
        = some (recoverSpec 3 ct5 ⟨1, 3⟩) :=
  ⟨by decide,
    recover_decryption_key_follows_spec S5 3 ct5 ⟨1, 3⟩ (by decide)⟩

/-- Claim C7: decrypting a ciphertext produced under `Y = y * G` with a
wrong key `y' ≠ y` gives a signature from which recovery returns none:
the R-equality shortcut passes but the recovered scalar's public point
differs from `Y`. -/
theorem recover_wrong_key (S : Schnorr n) (kp : KeyPair n)
    (y y' Y : ZMod n) (m : Message) (mode : Derivation) (rng : Nat)
    (ct : EncryptedSignature n)
    (hY : Y = gMul y (G n)) (hne : y' ≠ y)
    (hct : encrypted_sign S kp Y m mode rng = some ct) :
    recover_decryption_key S Y ct (decrypt_signature S y' ct)
      = some none := by
  subst hY
  simp [recover_decryption_key, decrypt_signature, add_sub_cancel_left,
    conditional_negate_conditional_negate, gMul, G, hne]

/-- Witness for claim C7 at the concrete context `S5`, decryption key
`3`, wrong key `1` and ciphertext `ct5`. -/
theorem recover_wrong_key_witness :
    (3 : ZMod 5) = gMul 3 (G 5) ∧ (1 : ZMod 5) ≠ 3 ∧
      encrypted_sign S5 kp5 3 [] .deterministic 0 = some ct5 ∧
      recover_decryption_key S5 3 ct5 (decrypt_signature S5 1 ct5)
        = some none :=
  ⟨by decide, by decide, by decide,
    recover_wrong_key S5 kp5 3 1 3 [] .deterministic 0 ct5 (by decide)
      (by decide) (by decide)⟩

/-- Claim C10: `recover_decryption_key` is a left inverse of decryption
on success: whenever it returns a scalar `y`, decrypting the ciphertext
with `y` reproduces the given signature exactly. -/
theorem decrypt_of_recover (S : Schnorr n) (Y y : ZMod n)
    (ct : EncryptedSignature n) (sig : Signature n)
    (h : recover_decryption_key S Y ct sig = some (some y)) :
    decrypt_signature S y ct = sig := by
  simp only [recover_decryption_key] at h
  split at h
  · simp at h
  · rename_i hR
    push_neg at hR
    split at h
    · split at h
      · simp at h
      · rw [Option.some.injEq, Option.some.injEq] at h
        subst h
        cases sig with
        | mk Rs ss =>
          simp only [decrypt_signature,
            conditional_negate_conditional_negate]
          simp only at hR
          rw [hR]
          simp [add_sub_cancel]
    · simp at h

/-- Witness for claim C10 at the concrete context `S5`, encryption key
`3`, ciphertext `ct5` and signature `(1, 3)`. -/
theorem decrypt_of_recover_witness :
    recover_decryption_key S5 3 ct5 ⟨1, 3⟩ = some (some 3) ∧
      decrypt_signature S5 3 ct5 = ⟨1, 3⟩ :=
  ⟨by decide, decrypt_of_recover S5 3 3 ct5 ⟨1, 3⟩ (by decide)⟩

/-- Claim C1: round-trip correctness: for a valid key pair, a
non-identity encryption key and any message and derivation mode, every
ciphertext returned by `encrypted_sign` passes
`verify_encrypted_signature` under the same keys and message. -/
theorem verify_after_sign (S : Schnorr n) (kp : KeyPair n) (Y : ZMod n)
    (m : Message) (mode : Derivation) (rng : Nat)
    (ct : EncryptedSignature n)
    (hkp : kp.valid) (hY : Y ≠ 0)
    (hct : encrypted_sign S kp Y m mode rng = some ct) :
    verify_encrypted_signature S kp.X Y m ct = true := by
  obtain ⟨hX, hEven⟩ := hkp
  simp only [encrypted_sign] at hct
  split at hct
  · exact absurd hct (by simp)
  · obtain rfl := Option.some.inj hct
    rcases into_point_with_y_choice_square_cases
        (gMul (derive_nonce S mode rng kp.x (kp.X.val :: Y.val :: m)) (G n)
          + Y) with h | h <;>
      rw [h] <;>
      simp [verify_encrypted_signature, conditional_negate, hX, gMul, G]

/-- Witness for claim C1 at the concrete context `S5`, key pair `kp5`,
encryption key `3`, the empty message and deterministic derivation. -/
theorem verify_after_sign_witness :
    kp5.valid ∧ (3 : ZMod 5) ≠ 0 ∧
      encrypted_sign S5 kp5 3 [] .deterministic 0 = some ct5 ∧
      verify_encrypted_signature S5 kp5.X 3 [] ct5 = true :=
  ⟨by decide, by decide, by decide,
    verify_after_sign S5 kp5 3 [] .deterministic 0 ct5 (by decide)
      (by decide) (by decide)⟩

end SchnorrFun
